import Mathlib

/-!
Verification of the natural-language specification of the
google/licenseclassifier v2 matching engine against its source.

Go source embedded here (shallow embedding):
* `v2/classifier.go` : `Match` records, `Matches` ordering, `Corpus.Match`
  first-pass filter and overlap-resolution loop, `licName`, `contains`,
  `between`, `overlaps`.
* `stringclassifier` (`src/unnamed/part_004`) : `confidencePercentage`.

Functions whose v2 implementations are not present under `src/` (only their
tests are) are modelled from the spec: `computeQ`, `tokenSimilarity`,
`scoreDiffs`, `diffLevenshteinWord`, `detectRuns`, `fuseRanges`. The models
of `scoreDiffs`, `diffLevenshteinWord` and `detectRuns` are validated against
every vector of their tests; `computeQ` against the `TestComputeQ` table;
`fuseRanges` follows the spec's sort-then-greedy-merge description, and its
determinism is exercised on the two permuted `TestFuseRanges` inputs.

Go `float64` arithmetic is embedded as exact rational (`ℚ`) arithmetic; Go
`int` as `ℤ` or `ℕ` as noted at each definition.
-/

namespace LC

/-! ## Data model: Match (v2/classifier.go lines 22-51) -/

/-- Match is the information about a single instance of a detected match.
Embeds the Go struct `Match` from v2/classifier.go; `Confidence` (float64)
becomes `ℚ`, the line/token indices (int) become `ℤ`. -/
structure Match where
  Name : String
  Confidence : ℚ
  MatchType : String
  StartLine : ℤ
  EndLine : ℤ
  StartTokenIndex : ℤ
  EndTokenIndex : ℤ
deriving DecidableEq, Repr

instance : Inhabited Match := ⟨⟨"", 0, "", 0, 0, 0, 0⟩⟩

/-- Go `Matches.Less` (v2/classifier.go lines 39-51): order by descending
confidence, then ascending start token, then descending end token. -/
def matchLess (a b : Match) : Bool :=
  if a.Confidence ≠ b.Confidence then decide (b.Confidence < a.Confidence)
  else if a.StartTokenIndex ≠ b.StartTokenIndex then
    decide (a.StartTokenIndex < b.StartTokenIndex)
  else decide (b.EndTokenIndex < a.EndTokenIndex)

/-! ## contains / between / overlaps (v2/classifier.go lines 164-177) -/

/-- Go `contains(a, b)`: `a.StartLine <= b.StartLine && a.EndLine >= b.StartLine`.
Note the second conjunct compares against `b.StartLine`, not `b.EndLine`. -/
def contains (a b : Match) : Bool :=
  decide (a.StartLine ≤ b.StartLine) && decide (b.StartLine ≤ a.EndLine)

/-- Go `between(a, b, c)`: `b <= a && a <= c`. -/
def between (a b c : ℤ) : Bool :=
  decide (b ≤ a) && decide (a ≤ c)

/-- Go `overlaps(a, b)`: either endpoint of `a` lies in `[b.StartLine, b.EndLine]`. -/
def overlaps (a b : Match) : Bool :=
  between a.StartLine b.StartLine b.EndLine || between a.EndLine b.StartLine b.EndLine

/-! ## licName (v2/classifier.go lines 153-162) -/

/-- Index of the first occurrence of `pat` as a contiguous sublist of `s`
(`strings.Index` in Go), or `none`. -/
def indexOfSub : List Char → List Char → Option ℕ
  | [], pat => if pat = [] then some 0 else none
  | c :: rest, pat =>
    if pat.isPrefixOf (c :: rest) then some 0
    else (indexOfSub rest pat).map (· + 1)

/-- Go `licName`: truncate at the first occurrence of ".txt", then truncate
the result at the index of the first occurrence of ".header" in the original
input (the Go code computes the second index on `in` but slices `out`). -/
def licName (s : String) : String :=
  let inChars := s.data
  let out1 := match indexOfSub inChars ".txt".data with
    | some i => inChars.take i
    | none => inChars
  let out2 := match indexOfSub inChars ".header".data with
    | some i => out1.take i
    | none => out1
  String.mk out2

/-! ## confidencePercentage (stringclassifier, src/unnamed/part_004 lines 526-537) -/

/-- Go `confidencePercentage(ulen, klen, distance)`: 1.0 when both lengths are
zero; 0.0 when either length is zero or the distance exceeds both lengths;
otherwise `1 - distance/max(ulen, klen)`. -/
def confidencePercentage (ulen klen distance : ℕ) : ℚ :=
  if ulen = 0 ∧ klen = 0 then 1
  else if ulen = 0 ∨ klen = 0 ∨ (distance > ulen ∧ distance > klen) then 0
  else 1 - (distance : ℚ) / ((max ulen klen : ℕ) : ℚ)

/-! ## computeQ (v2; implementation absent from src, pinned by TestComputeQ) -/

/-- Expected input/output table of `TestComputeQ` (v2/document_test.go lines
74-112): threshold ↦ expected q. -/
def computeQTestCases : List (ℚ × ℤ) :=
  [(9/10, 9), (4/5, 4), (67/100, 2), (1/2, 1), (0, 1), (1, 10)]

/-- Direct transcription of the spec sentence: `q = max(1, floor(1/(1-threshold)))`
clamped to 10, with `q = 10` at threshold 1.0. -/
def specComputeQ (t : ℚ) : ℤ :=
  if t = 1 then 10 else min 10 (max 1 ⌊1 / (1 - t)⌋)

/-- Modelled from the spec: the v2 `computeQ` implementation is absent from
`src/` (only `TestComputeQ` is present). The spec formula
`max(1, floor(1/(1-t)))` contradicts the test table, so the model uses
`floor(t/(1-t))` clamped to `[1, 10]` (10 at `t = 1`), the closed form that
reproduces all six `TestComputeQ` vectors. -/
def computeQ (t : ℚ) : ℤ :=
  if t = 1 then 10 else min 10 (max 1 ⌊t / (1 - t)⌋)

/-! ## Frequency filter, first pass and overlap resolution
(v2/classifier.go lines 54-148) -/

/-- Modelled from the spec: the v2 `tokenSimilarity` implementation is absent
from `src/` (only `TestTokenSimilarity` is). Documents are embedded as their
token-ID sequences; the similarity is the sum over token IDs of
`min(freq_target, freq_source)` divided by the source's token length. Go's
float64 division becomes exact `ℚ` division (Go's `0/0` is NaN, here `0`;
both fail `sim >= threshold` for every positive threshold). -/
def tokenSimilarity (target source : List ℤ) : ℚ :=
  (((source.dedup.map fun id => min (target.count id) (source.count id)).sum : ℕ) : ℚ) /
    (source.length : ℚ)

/-- Corpus (v2/document.go lines 50-54): named documents plus the configured
confidence threshold. The dictionary is left implicit in the token IDs. -/
structure Corpus where
  docs : List (String × List ℤ)
  threshold : ℚ

/-- First pass of `Corpus.Match` (classifier.go lines 57-63): keep exactly the
corpus entries whose token similarity with the target is at least the
threshold. -/
def firstPassOf (c : Corpus) (target : List ℤ) : List (String × List ℤ) :=
  c.docs.filter fun p => decide (c.threshold ≤ tokenSimilarity target p.2)

/-- Token-weighted score `(EndTokenIndex - StartTokenIndex) * Confidence` used
by the overlap-resolution loop (classifier.go lines 122-124). -/
def weightedTokens (m : Match) : ℚ :=
  ((m.EndTokenIndex - m.StartTokenIndex : ℤ) : ℚ) * m.Confidence

/-- Candidate lookup by index, with the zero match as default (indices used
below are always in bounds). -/
def getM (cands : List Match) (i : ℕ) : Match := cands.getD i default

/-- Conditions under which an earlier retained candidate `o` makes the Go loop
clear `keep` for the current candidate `c` (classifier.go lines 115-131):
either `contains c o` holds but `c`'s weighted score does not beat `o`'s, or
the two merely overlap. -/
def blocksKeep (c o : Match) : Bool :=
  (contains c o && !(decide (weightedTokens o < weightedTokens c))) ||
  (!(contains c o) && overlaps c o)

/-- The `keep` flag computed for candidate `i` after scanning all earlier,
still-retained candidates. -/
def keepAt (cands : List Match) (retain : ℕ → Bool) (i : ℕ) : Bool :=
  ((List.range i).filter retain).all fun j => !(blocksKeep (getM cands i) (getM cands j))

/-- The `proposals` condition (classifier.go lines 124-125): candidate `i`
contains candidate `j` and has the strictly larger weighted score, so `j`
is dropped when `i` is kept. -/
def dropsAt (cands : List Match) (i j : ℕ) : Bool :=
  contains (getM cands i) (getM cands j) &&
    decide (weightedTokens (getM cands j) < weightedTokens (getM cands i))

/-- One iteration of the Go retain loop for candidate `i`: when `keep`
survives the scan, mark `i` retained and apply the drop proposals; otherwise
leave the state unchanged. -/
def stepRetain (cands : List Match) (retain : ℕ → Bool) (i : ℕ) : ℕ → Bool :=
  if keepAt cands retain i = true then
    fun j => if j = i then true else (retain j && !(dropsAt cands i j))
  else retain

/-- Retain flags after processing the first `n` candidates. -/
def retainAfter (cands : List Match) (n : ℕ) : ℕ → Bool :=
  (List.range n).foldl (stepRetain cands) (fun _ => false)

/-- Output assembly of `Corpus.Match` (classifier.go lines 142-148): the
candidates whose retain flag survived, in order. -/
def resolveOverlaps (cands : List Match) : List Match :=
  ((List.range cands.length).filter (retainAfter cands cands.length)).map (getM cands)

/-- The `sort.Sort(candidates)` step (classifier.go line 93), deterministically
rendered as an insertion sort under the Go `Matches.Less` ordering. -/
def sortMatches (l : List Match) : List Match :=
  List.insertionSort (fun a b => matchLess b a = false) l

/-- `Corpus.Match` (classifier.go lines 54-148) with the per-entry candidate
generation (searchset lookup plus scoring, whose v2 implementations are absent
from `src/`) abstracted as `gen`: if no corpus entry passes the first-pass
similarity filter the result is `nil`; otherwise candidates are generated for
the surviving entries, sorted, and filtered by the overlap-resolution loop. -/
def corpusMatchWith (gen : String → List ℤ → List Match) (c : Corpus)
    (target : List ℤ) : List Match :=
  let fp := firstPassOf c target
  if fp.isEmpty then []
  else resolveOverlaps (sortMatches (fp.flatMap fun p => gen p.1 p.2))

/-! ## Diff and scorer (v2 scoring.go absent from src; modelled from the
spec and validated against TestLevenshteinDiff / TestScoreDiffs) -/

/-- Kinds of word-diff operations (Equal / Insert / Delete). -/
inductive DiffOp
  | eq
  | ins
  | del
deriving DecidableEq, Repr

/-- One diff fragment: an operation together with its word tokens (Go stores
a space-joined string; the embedding keeps the word list). -/
structure Diff where
  op : DiffOp
  text : List String
deriving DecidableEq, Repr

/-- Word count of a diff fragment (Go `wordLen`). -/
def wordLen (d : Diff) : ℕ := d.text.length

/-- Accumulator pass of the word-granularity Levenshtein distance: pending
insertion and deletion word counts are folded into `max(ins, del)` at each
Equal boundary and at the end. -/
def diffLevAux : ℕ → ℕ → List Diff → ℕ
  | insAcc, delAcc, [] => max insAcc delAcc
  | insAcc, delAcc, d :: ds =>
    match d.op with
    | DiffOp.ins => diffLevAux (insAcc + wordLen d) delAcc ds
    | DiffOp.del => diffLevAux insAcc (delAcc + wordLen d) ds
    | DiffOp.eq => max insAcc delAcc + diffLevAux 0 0 ds

/-- Modelled from the spec: `diffLevenshteinWord` is absent from `src/` (only
`TestLevenshteinDiff` is); a pair of adjacent Insert/Delete runs scores the
maximum of the two word counts (a word-level substitution), Equal scores 0. -/
def diffLevenshteinWord (ds : List Diff) : ℕ := diffLevAux 0 0 ds

/-- Rejection sentinel named by `TestScoreDiffs`; its concrete value is not
in `src/`, only that `score` treats it as precluding the match, so the model
uses distinct negative values. -/
def versionChange : ℤ := -1

/-- Rejection sentinel for a lesser/affero edit next to gnu/gpl. -/
def lesserGPLChange : ℤ := -2

/-- Rejection sentinel for an inserted source-license name. -/
def introducedPhraseChange : ℤ := -3

/-- ASCII lowercasing, character by character (Go `strings.ToLower` on the
ASCII license names at issue). -/
def lowercase (s : String) : String := String.mk (s.data.map Char.toLower)

/-- Is the word a numeric (version-like) token? -/
def isNumeric (s : String) : Bool :=
  s.data.any Char.isDigit && s.data.all fun c => c.isDigit || c == '.'

/-- Is the first word of the edited fragment numeric? -/
def headNumeric (d : Diff) : Bool :=
  match d.text.head? with
  | some w => isNumeric w
  | none => false

/-- Does the edited fragment introduce or remove "lesser" or "affero"? -/
def hasLesserAffero (d : Diff) : Bool :=
  d.text.contains "lesser" || d.text.contains "affero"

/-- Does the tracked preceding-equal word equal `s`? -/
def prevIs (prev : Option String) (s : String) : Bool :=
  match prev with
  | some w => w == s
  | none => false

/-- Word stem shared by "license"/"licence"/"licenses". -/
def licenseStemWord (w : String) : Bool := "licen".data.isPrefixOf w.data

/-- Does the tracked preceding-equal word carry the license stem? -/
def prevStem (prev : Option String) : Bool :=
  match prev with
  | some w => licenseStemWord w
  | none => false

/-- Space-join over character lists. -/
def joinChars : List (List Char) → List Char
  | [] => []
  | [w] => w
  | w :: ws => w ++ ' ' :: joinChars ws

/-- Space-join of a word list (inverse of the tokenization of a fragment). -/
def joinWords (l : List String) : String := String.mk (joinChars (l.map String.data))

/-- Modelled from the spec: the diff-policy table of `scoreDiffs` (absent
from `src/`, pinned by `TestScoreDiffs`). Relative to the word ending the
closest preceding Equal fragment: a non-Equal edit whose first token is
numeric right after "version" is a version change; an Insert or Delete
carrying "lesser"/"affero" next to "gnu"/"gpl" is a GPL-family change; an
Insert equal to the lowercased source license name next to a license-stem
word is an introduced phrase. -/
def badEditKind (license : String) (prev : Option String) (d : Diff) : Option ℤ :=
  if d.op = DiffOp.eq then none
  else if (prevIs prev "version" && headNumeric d) = true then some versionChange
  else if ((prevIs prev "gnu" || prevIs prev "gpl") && hasLesserAffero d) = true then
    some lesserGPLChange
  else if (decide (d.op = DiffOp.ins) && prevStem prev &&
      (joinWords d.text == lowercase license)) = true then
    some introducedPhraseChange
  else none

/-- Track the word ending the closest preceding Equal fragment. -/
def updatePrev (prev : Option String) (d : Diff) : Option String :=
  if d.op = DiffOp.eq then
    match d.text.getLast? with
    | some w => some w
    | none => prev
  else prev

/-- Scan of the diff sequence for the first policy rejection. -/
def findReject (license : String) : Option String → List Diff → Option ℤ
  | _, [] => none
  | prev, d :: ds =>
    match badEditKind license prev d with
    | some v => some v
    | none => findReject license (updatePrev prev d) ds

/-- Modelled from the spec: `scoreDiffs` (absent from `src/`) returns the
rejection sentinel when the policy table fires and the word-level Levenshtein
distance otherwise. -/
def scoreDiffs (license : String) (ds : List Diff) : ℤ :=
  match findReject license none ds with
  | some v => v
  | none => (diffLevenshteinWord ds : ℤ)

/-- Modelled from the spec: the confidence computed by `score` for a span
diffed against a corpus entry of `klen` tokens (two-argument v2
`confidencePercentage`, pinned by `TestConfidencePercentage`); a rejection
sentinel precludes the match, yielding confidence 0. -/
def diffConfidence (license : String) (ds : List Diff) (klen : ℕ) : ℚ :=
  let dist := scoreDiffs license ds
  if dist < 0 then 0
  else if klen = 0 then 1
  else 1 - (dist : ℚ) / (klen : ℚ)

/-- A version-change edit pair: an Equal fragment ending in "version"
immediately followed by a non-Equal edit starting with a numeric token. -/
def versionEditAt (d1 d2 : Diff) : Prop :=
  d1.op = DiffOp.eq ∧ d1.text.getLast? = some "version" ∧
  d2.op ≠ DiffOp.eq ∧ ∃ w, d2.text.head? = some w ∧ isNumeric w = true

/-- A lesser/affero edit pair: an Equal fragment ending in "gnu" or "gpl"
immediately followed by an Insert or Delete carrying "lesser" or "affero". -/
def lesserAfferoEditAt (d1 d2 : Diff) : Prop :=
  d1.op = DiffOp.eq ∧ (d1.text.getLast? = some "gnu" ∨ d1.text.getLast? = some "gpl") ∧
  d2.op ≠ DiffOp.eq ∧
  (d2.text.contains "lesser" = true ∨ d2.text.contains "affero" = true)

/-- An introduced-license-name pair: an Equal fragment ending in a
license-stem word immediately followed by an Insert of the lowercased source
license name. -/
def introducedNameEditAt (license : String) (d1 d2 : Diff) : Prop :=
  d1.op = DiffOp.eq ∧ (∃ w, d1.text.getLast? = some w ∧ licenseStemWord w = true) ∧
  d2.op = DiffOp.ins ∧ joinWords d2.text = lowercase license

/-- The diff sequence contains one of the policy table's rejected edits. -/
def hasRejectedEdit (license : String) (ds : List Diff) : Prop :=
  ∃ pre d1 d2 post, ds = pre ++ d1 :: d2 :: post ∧
    (versionEditAt d1 d2 ∨ lesserAfferoEditAt d1 d2 ∨
      introducedNameEditAt license d1 d2)

/-! ## Run detection (v2 searchset.go absent from src; modelled from the
spec and validated against TestDetectRuns) -/

/-- MatchRange (v2): corresponding half-open token intervals in source and
target plus the number of tokens claimed; Go ints become `ℤ`. -/
structure matchRange where
  SrcStart : ℤ
  SrcEnd : ℤ
  TargetStart : ℤ
  TargetEnd : ℤ
  TokensClaimed : ℤ
deriving DecidableEq, Repr

/-- Is target token position `i` covered by one of the q-gram hit ranges? -/
def hitAt (matched : List matchRange) (i : ℕ) : Bool :=
  matched.any fun m => decide (m.TargetStart ≤ (i : ℤ)) && decide ((i : ℤ) < m.TargetEnd)

/-- Number of hit positions in the half-open window `[s, e)`. -/
def countHits (matched : List matchRange) (s e : ℕ) : ℕ :=
  ((List.range' s (e - s)).filter (hitAt matched)).length

/-- The error margin `floor(L * (1 - threshold))` by which a source of length
`L` may start before the naive alignment. -/
def errorMargin (subsetLength : ℕ) (threshold : ℚ) : ℕ :=
  (⌊(subsetLength : ℚ) * (1 - threshold)⌋).toNat

/-- Does the window of the source's length starting at target position `s`
(clipped to the target's end) cover enough hits to host a match within the
error margin? -/
def windowPass (matched : List matchRange) (targetLength subsetLength margin s : ℕ) : Bool :=
  decide (subsetLength - margin ≤ countHits matched s (min (s + subsetLength) targetLength))

/-- A run `[a, b)` in the output encoding of `detectRuns` (only the source
interval of the record is populated, as in the TestDetectRuns vectors). -/
def mkRun (a b : ℕ) : matchRange := ⟨(a : ℤ), (b : ℤ), 0, 0, 0⟩

/-- Assemble maximal consecutive blocks of passing window starts, the current
block spanning `[start, cur]`; each emitted run ends `q` past its last window
start, on a q-gram boundary. -/
def runsGo (start cur : ℕ) : List ℕ → ℕ → List matchRange
  | [], q => [mkRun start (cur + q)]
  | x :: xs, q =>
    if x = cur + 1 then runsGo start x xs q
    else mkRun start (cur + q) :: runsGo x x xs q

/-- Group a sorted list of passing window starts into runs. -/
def runsOf : List ℕ → ℕ → List matchRange
  | [], _ => []
  | a :: rest, q => runsGo a a rest q

/-- Modelled from the spec: the v2 `detectRuns` implementation is absent from
`src/` (only `TestDetectRuns` is). A window of the source's length slides over
the target's hit map; windows missing at most `floor(L * (1 - threshold))`
hits pass, and maximal consecutive blocks of passing window starts become
runs ending on a q-gram boundary. The model reproduces all four
`TestDetectRuns` vectors. -/
def detectRuns (matched : List matchRange) (targetLength subsetLength : ℕ)
    (threshold : ℚ) (q : ℕ) : List matchRange :=
  runsOf ((List.range targetLength).filter
    (windowPass matched targetLength subsetLength (errorMargin subsetLength threshold))) q

/-! ## Range fusing (v2 fuseRanges absent from src; modelled from the spec's
"sort by (target_start, src_start), then greedily merge within the error
budget") -/

/-- Total lexicographic order on `matchRange` realizing the spec's
"sort by (target_start, src_start)" deterministically; the remaining fields
break ties so the order is antisymmetric. -/
def mrLe (a b : matchRange) : Bool :=
  if a.TargetStart ≠ b.TargetStart then decide (a.TargetStart < b.TargetStart)
  else if a.SrcStart ≠ b.SrcStart then decide (a.SrcStart < b.SrcStart)
  else if a.TargetEnd ≠ b.TargetEnd then decide (a.TargetEnd < b.TargetEnd)
  else if a.SrcEnd ≠ b.SrcEnd then decide (a.SrcEnd < b.SrcEnd)
  else decide (a.TokensClaimed ≤ b.TokensClaimed)

/-- The sorting relation as a Prop. -/
def mrLeRel (a b : matchRange) : Prop := mrLe a b = true

instance : DecidableRel mrLeRel := fun a b => Bool.decEq (mrLe a b) true

instance : IsTotal matchRange mrLeRel := ⟨by
  intro a b
  unfold mrLeRel mrLe
  split_ifs <;> simp only [decide_eq_true_eq] <;> omega⟩

set_option maxHeartbeats 1600000 in
instance : IsTrans matchRange mrLeRel := ⟨by
  intro a b c hab hbc
  obtain ⟨a1, a2, a3, a4, a5⟩ := a
  obtain ⟨b1, b2, b3, b4, b5⟩ := b
  obtain ⟨c1, c2, c3, c4, c5⟩ := c
  unfold mrLeRel mrLe at hab hbc ⊢
  dsimp only at hab hbc ⊢
  split_ifs at hab hbc ⊢ <;> simp only [decide_eq_true_eq] at hab hbc ⊢ <;> omega⟩

instance : IsAntisymm matchRange mrLeRel := ⟨by
  intro a b hab hba
  unfold mrLeRel mrLe at hab hba
  obtain ⟨a1, a2, a3, a4, a5⟩ := a
  obtain ⟨b1, b2, b3, b4, b5⟩ := b
  simp only [matchRange.mk.injEq]
  dsimp only at hab hba
  split_ifs at hab hba <;> simp only [decide_eq_true_eq] at hab hba <;> omega⟩

/-- Merge two coalescable ranges into their envelope, accumulating the
claimed token counts. -/
def fuseMR (a b : matchRange) : matchRange :=
  ⟨min a.SrcStart b.SrcStart, max a.SrcEnd b.SrcEnd,
   min a.TargetStart b.TargetStart, max a.TargetEnd b.TargetEnd,
   a.TokensClaimed + b.TokensClaimed⟩

/-- Gap test of the greedy merge: the next range may fuse when the gaps to it
in both the target and the source coordinate are within the error budget. -/
def canMerge (budget : ℤ) (a b : matchRange) : Bool :=
  decide (b.TargetStart - a.TargetEnd ≤ budget) && decide (b.SrcStart - a.SrcEnd ≤ budget)

/-- Greedy left-to-right merge over the sorted candidate list. -/
def greedyGo (budget : ℤ) : matchRange → List matchRange → List matchRange
  | acc, [] => [acc]
  | acc, y :: ys =>
    if canMerge budget acc y then greedyGo budget (fuseMR acc y) ys
    else acc :: greedyGo budget y ys

/-- Greedy merge of a candidate list. -/
def greedyMerge (budget : ℤ) : List matchRange → List matchRange
  | [] => []
  | x :: xs => greedyGo budget x xs

/-- Deterministic sort underlying `fuseRanges`. -/
def sortRanges (l : List matchRange) : List matchRange := List.insertionSort mrLeRel l

/-- Modelled from the spec: the v2 `fuseRanges` implementation is absent from
`src/` (only `TestFuseRanges` is). Candidates are sorted by the deterministic
`(target_start, src_start, …)` order, greedily merged while the coordinate
gaps stay within the error budget `floor(size * (1 - conf))`, and the fused
spans must claim at least `conf * size` tokens. -/
def fuseRanges (l : List matchRange) (conf : ℚ) (size : ℕ) : List matchRange :=
  (greedyMerge ⌊(size : ℚ) * (1 - conf)⌋ (sortRanges l)).filter
    fun m => decide (conf * (size : ℚ) ≤ (m.TokensClaimed : ℚ))

/-! ## Claims C1, C2, C7, C8 -/

/-- C1 counterexample: the spec's formula `max(1, floor(1/(1-t)))` gives 2 at
threshold 0.5, but the repository's `TestComputeQ` requires `computeQ(0.5) = 1`
(the table also disagrees at 0.8: 5 vs 4, and at 0.9: 10 vs 9). -/
theorem c1_counterexample :
    ((1/2 : ℚ), (1 : ℤ)) ∈ computeQTestCases ∧ specComputeQ (1/2) = 2 ∧
    specComputeQ (4/5) = 5 ∧ specComputeQ (9/10) = 10 ∧
    ¬ (specComputeQ (1/2) = 1 ∧ specComputeQ (4/5) = 4 ∧ specComputeQ (9/10) = 9) := by
  have h2 : specComputeQ (1/2) = 2 := by
    norm_num [specComputeQ, Int.floor_eq_iff]
  have h5 : specComputeQ (4/5) = 5 := by
    norm_num [specComputeQ, Int.floor_eq_iff]
  have h10 : specComputeQ (9/10) = 10 := by
    norm_num [specComputeQ, Int.floor_eq_iff]
  refine ⟨by norm_num [computeQTestCases], h2, h5, h10, ?_⟩
  rw [h2]
  simp

/-- C1 (amended): the q-gram window size equals `floor(t/(1-t))` clamped to
`[1, 10]`, with `q = 10` at `t = 1.0`; in particular `computeQ` gives 1 at
`t = 0.5`, 4 at `t = 0.8` and 9 at `t = 0.9`, and agrees with every entry of
the repository's `TestComputeQ` table. -/
theorem c1_amended_computeQ :
    computeQ (1/2) = 1 ∧ computeQ (4/5) = 4 ∧ computeQ (9/10) = 9 ∧
    computeQTestCases.all (fun p => decide (computeQ p.1 = p.2)) = true := by
  have e1 : computeQ (1/2) = 1 := by norm_num [computeQ, Int.floor_eq_iff]
  have e4 : computeQ (4/5) = 4 := by norm_num [computeQ, Int.floor_eq_iff]
  have e9 : computeQ (9/10) = 9 := by norm_num [computeQ, Int.floor_eq_iff]
  have e2 : computeQ (67/100) = 2 := by norm_num [computeQ, Int.floor_eq_iff]
  have e0 : computeQ 0 = 1 := by norm_num [computeQ]
  have eTop : computeQ 1 = 10 := by norm_num [computeQ]
  have e1h : computeQ (2⁻¹ : ℚ) = 1 := by rw [← one_div]; exact e1
  refine ⟨e1, e4, e9, ?_⟩
  simp [computeQTestCases, List.all_cons, e1, e1h, e4, e9, e2, e0, eTop]

/-- C2 counterexample: at target-slice length 2, corpus length 3 and distance
4 the code clamps the confidence to 0.0, while the claimed formula
`1 - d/max(u,k)` gives `-1/3`. -/
theorem c2_counterexample :
    confidencePercentage 2 3 4 = 0 ∧
    confidencePercentage 2 3 4 ≠ 1 - (4 : ℚ) / ((max 2 3 : ℕ) : ℚ) := by
  have h : confidencePercentage 2 3 4 = 0 := by
    unfold confidencePercentage
    rw [if_neg (by omega), if_pos (by omega)]
  refine ⟨h, ?_⟩
  rw [h]
  norm_num

/-- C2 (amended): the confidence equals `1 - d/max(u,k)` whenever both lengths
are positive and `d ≤ max(u,k)` (which holds for genuine edit distances); it
is 1.0 when both lengths are zero, 0.0 when exactly one is zero, and — beyond
the claim's cases — clamped to 0.0 when the distance exceeds both lengths. -/
theorem c2_confidence_formula (u k d : ℕ) :
    (0 < u → 0 < k → d ≤ max u k →
      confidencePercentage u k d = 1 - (d : ℚ) / ((max u k : ℕ) : ℚ)) ∧
    confidencePercentage 0 0 d = 1 ∧
    (0 < k → confidencePercentage 0 k d = 0) ∧
    (0 < u → confidencePercentage u 0 d = 0) := by
  refine ⟨fun hu hk hd => ?_, ?_, fun hk => ?_, fun hu => ?_⟩
  · unfold confidencePercentage
    rw [if_neg (by omega), if_neg (by omega)]
  · unfold confidencePercentage
    rw [if_pos ⟨rfl, rfl⟩]
  · unfold confidencePercentage
    rw [if_neg (by omega), if_pos (Or.inl rfl)]
  · unfold confidencePercentage
    rw [if_neg (by omega), if_pos (Or.inr (Or.inl rfl))]

/-- C2 witness: the amended formula evaluated at concrete inputs, including
the `TestConfidencePercentage` vector (100, 1) ↦ 0.99. -/
theorem c2_confidence_formula_witness :
    confidencePercentage 100 100 1 = 1 - (1 : ℚ) / ((max 100 100 : ℕ) : ℚ) ∧
    confidencePercentage 0 0 7 = 1 ∧ confidencePercentage 0 5 3 = 0 ∧
    confidencePercentage 5 0 3 = 0 := by
  have h := c2_confidence_formula 100 100 1
  have h2 := c2_confidence_formula 0 0 7
  have h3 := c2_confidence_formula 0 5 3
  have h4 := c2_confidence_formula 5 0 3
  exact ⟨h.1 (by decide) (by decide) (by decide), h2.2.1,
    h3.2.2.1 (by decide), h4.2.2.2 (by decide)⟩

/-- C7 counterexample: the matches with line ranges [1,5] and [1,10] contain
each other under `contains` (which only checks the other match's start line)
yet do not cover the identical line range; and on a degenerate match whose
end line precedes its start line, `contains(a, a)` is false, so reflexivity
also fails without a well-formedness proviso. -/
theorem c7_counterexample :
    contains ⟨"a", 1, "Text", 1, 5, 0, 0⟩ ⟨"b", 1, "Text", 1, 10, 0, 0⟩ = true ∧
    contains ⟨"b", 1, "Text", 1, 10, 0, 0⟩ ⟨"a", 1, "Text", 1, 5, 0, 0⟩ = true ∧
    ¬ ((5 : ℤ) = 10) ∧
    contains ⟨"c", 1, "Text", 2, 1, 0, 0⟩ ⟨"c", 1, "Text", 2, 1, 0, 0⟩ = false := by
  refine ⟨by decide, by decide, by decide, by decide⟩

/-- C7 (amended): `contains(a, a)` holds for every match whose start line is
at most its end line, and mutual containment forces equal start lines only
(matches [1,5] and [1,10] contain each other while differing in end line). -/
theorem c7_contains_weak_order (a b : Match) :
    (a.StartLine ≤ a.EndLine → contains a a = true) ∧
    (contains a b = true → contains b a = true → a.StartLine = b.StartLine) := by
  constructor
  · intro h
    simp only [contains, Bool.and_eq_true, decide_eq_true_eq]
    omega
  · intro hab hba
    simp only [contains, Bool.and_eq_true, decide_eq_true_eq] at hab hba
    omega

/-- C7 witness: the amended properties at a concrete match pair. -/
theorem c7_contains_weak_order_witness :
    contains ⟨"x", 1, "Text", 2, 4, 0, 0⟩ ⟨"x", 1, "Text", 2, 4, 0, 0⟩ = true ∧
    ((2 : ℤ) = 2) := by
  have h := c7_contains_weak_order ⟨"x", 1, "Text", 2, 4, 0, 0⟩ ⟨"y", 1, "Text", 2, 9, 0, 0⟩
  exact ⟨h.1 (by decide), h.2 (by decide) (by decide)⟩

/-- C4: a corpus entry is a first-pass candidate of `Corpus.Match` exactly
when the token similarity — the sum over token IDs of the minimum of the two
frequency counts, divided by the source's token length — is at least the
configured threshold; and when no entry passes, the match result is empty. -/
theorem c4_first_pass_filter (c : Corpus) (target : List ℤ) (l : String) (d : List ℤ) :
    ((l, d) ∈ firstPassOf c target ↔
      (l, d) ∈ c.docs ∧
      c.threshold ≤
        (((d.dedup.map fun id => min (target.count id) (d.count id)).sum : ℕ) : ℚ) /
          (d.length : ℚ)) ∧
    (firstPassOf c target = [] → ∀ gen, corpusMatchWith gen c target = []) := by
  constructor
  · simp [firstPassOf, List.mem_filter, tokenSimilarity]
  · intro h gen
    simp [corpusMatchWith, h]

/-- C4 witness: with threshold 1/2, target tokens [1,2,3] and corpus entries
"b" = [1,2] (similarity 1) and "c" = [5,6,7,8,9] (similarity 0), the first
pass keeps "b" and skips "c"; a corpus holding only "c" yields an empty match
list for this target whatever the candidate generator produces. -/
theorem c4_first_pass_filter_witness :
    ("b", [(1:ℤ), 2]) ∈ firstPassOf ⟨[("b", [1, 2]), ("c", [5, 6, 7, 8, 9])], 1/2⟩ [1, 2, 3] ∧
    ("c", [(5:ℤ), 6, 7, 8, 9]) ∉ firstPassOf ⟨[("b", [1, 2]), ("c", [5, 6, 7, 8, 9])], 1/2⟩ [1, 2, 3] ∧
    corpusMatchWith (fun n _ => [⟨n, 1, "Text", 1, 2, 3, 4⟩]) ⟨[("c", [5, 6, 7, 8, 9])], 1/2⟩ [1, 2, 3] = [] := by
  refine ⟨?_, ?_, ?_⟩
  · exact (c4_first_pass_filter _ _ "b" [1, 2]).1.mpr (by norm_num [List.count_cons])
  · intro hmem
    have h := (c4_first_pass_filter ⟨[("b", [1, 2]), ("c", [5, 6, 7, 8, 9])], 1/2⟩
      [1, 2, 3] "c" [5, 6, 7, 8, 9]).1.mp hmem
    norm_num [List.count_cons] at h
  · refine (c4_first_pass_filter ⟨[("c", [5, 6, 7, 8, 9])], 1/2⟩ [1, 2, 3] "c" [5, 6, 7, 8, 9]).2 ?_ _
    norm_num [firstPassOf, tokenSimilarity, List.count_cons]

/-- C9: the embedded `Corpus.Match` is a total function; on a target that
tokenizes to nothing, every corpus entry's token similarity is 0, so for any
positive threshold no entry passes the first-pass filter and the result is the
empty match list — whatever candidate generator stands in for the searchset
and scoring phases. -/
theorem c9_empty_input_empty_result (gen : String → List ℤ → List Match)
    (c : Corpus) (h : 0 < c.threshold) : corpusMatchWith gen c [] = [] := by
  have hfp : firstPassOf c [] = [] := by
    refine List.filter_eq_nil_iff.mpr fun p _ => ?_
    have hsum : ((p.2.dedup.map fun id => min (List.count id [] : ℕ) (p.2.count id)).sum : ℕ) = 0 := by
      refine List.sum_eq_zero fun x hx => ?_
      rcases List.mem_map.mp hx with ⟨id, _, rfl⟩
      simp
    have hsim : tokenSimilarity [] p.2 = 0 := by
      unfold tokenSimilarity
      rw [show (fun id => min (List.count id ([] : List ℤ)) (p.2.count id)) =
        fun id => min (List.count id [] : ℕ) (p.2.count id) from rfl, hsum]
      norm_num
    simp only [hsim, decide_eq_true_eq, not_le]
    exact h
  simp [corpusMatchWith, hfp]

/-- C9 witness: a two-entry corpus with threshold 1/2 and a generator that
would report a match for every entry still yields the empty list on the empty
target. -/
theorem c9_empty_input_empty_result_witness :
    corpusMatchWith (fun n _ => [⟨n, 1, "Text", 1, 2, 3, 4⟩])
      ⟨[("a", [1, 2]), ("b", [3])], 1/2⟩ [] = [] :=
  c9_empty_input_empty_result _ _ (by norm_num)

/-! ## Model validation against TestLevenshteinDiff and TestScoreDiffs -/

example : diffLevenshteinWord [⟨DiffOp.eq, ["equivalent", "text"]⟩] = 0 := rfl

example : diffLevenshteinWord
    [⟨DiffOp.del, ["removed", "words"]⟩, ⟨DiffOp.ins, ["inserted", "text", "here"]⟩] = 3 := rfl

example : diffLevenshteinWord
    [⟨DiffOp.eq, ["identical", "words"]⟩, ⟨DiffOp.ins, ["inserted"]⟩] = 1 := rfl

example : diffLevenshteinWord
    [⟨DiffOp.del, ["many", "extraneous", "deleted", "words"]⟩,
     ⟨DiffOp.eq, ["before", "the", "equivalent", "text"]⟩] = 4 := rfl

example : scoreDiffs "" [] = 0 := rfl

example : scoreDiffs ""
    [⟨DiffOp.eq, ["license"]⟩, ⟨DiffOp.ins, ["as", "needed"]⟩,
     ⟨DiffOp.del, ["when", "necessary"]⟩] = 2 := by decide

example : scoreDiffs ""
    [⟨DiffOp.eq, ["version"]⟩, ⟨DiffOp.ins, ["2"]⟩] = versionChange := by decide

example : scoreDiffs ""
    [⟨DiffOp.eq, ["gnu"]⟩, ⟨DiffOp.del, ["lesser"]⟩] = lesserGPLChange := by decide

example : scoreDiffs ""
    [⟨DiffOp.eq, ["gnu"]⟩, ⟨DiffOp.ins, ["lesser"]⟩] = lesserGPLChange := by decide

example : scoreDiffs "ImageMagick"
    [⟨DiffOp.eq, ["license"]⟩, ⟨DiffOp.ins, ["imagemagick"]⟩] = introducedPhraseChange := by
  decide

/-! ## C3: policy rejections preclude matches -/

/-- Every sentinel the policy table can return is negative. -/
theorem badEditKind_neg (license : String) (prev : Option String) (d : Diff) (v : ℤ)
    (h : badEditKind license prev d = some v) : v < 0 := by
  unfold badEditKind versionChange lesserGPLChange introducedPhraseChange at h
  split_ifs at h <;>
    first
      | exact Option.noConfusion h
      | (injection h with h; omega)

/-- The scan only ever returns negative sentinels. -/
theorem findReject_neg (license : String) :
    ∀ (prev : Option String) (ds : List Diff) (v : ℤ),
      findReject license prev ds = some v → v < 0 := by
  intro prev ds
  induction ds generalizing prev with
  | nil => intro v h; exact Option.noConfusion h
  | cons d ds ih =>
    intro v h
    unfold findReject at h
    cases hbe : badEditKind license prev d with
    | some w =>
      rw [hbe] at h
      injection h with h
      rw [← h]
      exact badEditKind_neg license prev d w hbe
    | none =>
      rw [hbe] at h
      exact ih _ v h

/-- A license-stem word is none of the policy table's anchor words. -/
theorem stem_not_anchor (w : String) (h : licenseStemWord w = true) :
    w ≠ "version" ∧ w ≠ "gnu" ∧ w ≠ "gpl" := by
  refine ⟨?_, ?_, ?_⟩ <;> rintro rfl <;> exact absurd h (by decide)

/-- When the immediately preceding fragment is the Equal block of a rejected
edit pair, the policy table fires on the edit fragment. -/
theorem badEditKind_fires (license : String) (prev : Option String) (d1 d2 : Diff)
    (h : versionEditAt d1 d2 ∨ lesserAfferoEditAt d1 d2 ∨
      introducedNameEditAt license d1 d2) :
    ∃ v, badEditKind license (updatePrev prev d1) d2 = some v := by
  rcases h with ⟨h1, h2, h3, w, hw, hnum⟩ | ⟨h1, h2, h3, h4⟩ | ⟨h1, ⟨w, hw, hstem⟩, h3, h4⟩
  · have hprev : updatePrev prev d1 = some "version" := by
      unfold updatePrev
      rw [if_pos h1, h2]
    refine ⟨versionChange, ?_⟩
    rw [hprev]
    unfold badEditKind
    rw [if_neg h3, if_pos (by simp [prevIs, headNumeric, hw, hnum])]
  · rcases h2 with h2 | h2
    · have hprev : updatePrev prev d1 = some "gnu" := by
        unfold updatePrev
        rw [if_pos h1, h2]
      refine ⟨lesserGPLChange, ?_⟩
      rw [hprev]
      unfold badEditKind
      rw [if_neg h3]
      rw [if_neg (by simp [prevIs]), if_pos ?_]
      have hla : hasLesserAffero d2 = true := by
        unfold hasLesserAffero
        rcases h4 with h4 | h4
        · rw [h4]
          rfl
        · rw [h4]
          simp
      simp [prevIs, hla]
    · have hprev : updatePrev prev d1 = some "gpl" := by
        unfold updatePrev
        rw [if_pos h1, h2]
      refine ⟨lesserGPLChange, ?_⟩
      rw [hprev]
      unfold badEditKind
      rw [if_neg h3]
      rw [if_neg (by simp [prevIs]), if_pos ?_]
      have hla : hasLesserAffero d2 = true := by
        unfold hasLesserAffero
        rcases h4 with h4 | h4
        · rw [h4]
          rfl
        · rw [h4]
          simp
      simp [prevIs, hla]
  · have hprev : updatePrev prev d1 = some w := by
      unfold updatePrev
      rw [if_pos h1, hw]
    obtain ⟨hv, hg, hp⟩ := stem_not_anchor w hstem
    have hne : d2.op ≠ DiffOp.eq := by rw [h3]; decide
    refine ⟨introducedPhraseChange, ?_⟩
    rw [hprev]
    unfold badEditKind
    have hc1 : ¬ ((prevIs (some w) "version" && headNumeric d2) = true) := by
      intro hcond
      rw [Bool.and_eq_true] at hcond
      obtain ⟨hpv, _⟩ := hcond
      unfold prevIs at hpv
      exact hv (beq_iff_eq.mp hpv)
    have hc2 : ¬ (((prevIs (some w) "gnu" || prevIs (some w) "gpl") &&
        hasLesserAffero d2) = true) := by
      intro hcond
      rw [Bool.and_eq_true, Bool.or_eq_true] at hcond
      obtain ⟨hpv | hpv, _⟩ := hcond
      · unfold prevIs at hpv
        exact hg (beq_iff_eq.mp hpv)
      · unfold prevIs at hpv
        exact hp (beq_iff_eq.mp hpv)
    have hc3 : (decide (d2.op = DiffOp.ins) && prevStem (some w) &&
        (joinWords d2.text == lowercase license)) = true := by
      rw [Bool.and_eq_true, Bool.and_eq_true]
      refine ⟨⟨decide_eq_true h3, ?_⟩, beq_iff_eq.mpr h4⟩
      unfold prevStem
      exact hstem
    rw [if_neg hne, if_neg hc1, if_neg hc2, if_pos hc3]

/-- Wherever a rejected edit pair sits in the diff sequence, the scan finds a
rejection. -/
theorem findReject_fires (license : String) (d1 d2 : Diff) (post : List Diff)
    (hbad : versionEditAt d1 d2 ∨ lesserAfferoEditAt d1 d2 ∨
      introducedNameEditAt license d1 d2) :
    ∀ (pre : List Diff) (prev : Option String),
      ∃ v, findReject license prev (pre ++ d1 :: d2 :: post) = some v := by
  intro pre
  induction pre with
  | nil =>
    intro prev
    have hd1eq : d1.op = DiffOp.eq := by
      rcases hbad with h | h | h
      · exact h.1
      · exact h.1
      · exact h.1
    have hbe1 : badEditKind license prev d1 = none := by
      unfold badEditKind
      rw [if_pos hd1eq]
    obtain ⟨v, hv⟩ := badEditKind_fires license prev d1 d2 hbad
    refine ⟨v, ?_⟩
    show findReject license prev (d1 :: d2 :: post) = some v
    unfold findReject
    rw [hbe1]
    unfold findReject
    rw [hv]
  | cons d pre ih =>
    intro prev
    cases hbe : badEditKind license prev d with
    | some u =>
      refine ⟨u, ?_⟩
      show findReject license prev (d :: (pre ++ d1 :: d2 :: post)) = some u
      unfold findReject
      rw [hbe]
    | none =>
      obtain ⟨v, hv⟩ := ih (updatePrev prev d)
      refine ⟨v, ?_⟩
      show findReject license prev (d :: (pre ++ d1 :: d2 :: post)) = some v
      unfold findReject
      rw [hbe]
      exact hv

/-- C3: a diff sequence containing any of the policy table's listed edits —
a numeric edit right after "version", an Insert/Delete of "lesser"/"affero"
next to "gnu"/"gpl", or an Insert of the lowercased source license name next
to a license-stem word — scores a negative rejection sentinel, so the span's
confidence is 0, below every positive threshold, and the span is never
reported as a match. -/
theorem c3_policy_rejections (license : String) (ds : List Diff) (klen : ℕ) (t : ℚ)
    (ht : 0 < t) (hbad : hasRejectedEdit license ds) :
    scoreDiffs license ds < 0 ∧ diffConfidence license ds klen = 0 ∧
    diffConfidence license ds klen < t := by
  obtain ⟨pre, d1, d2, post, rfl, hpat⟩ := hbad
  obtain ⟨v, hv⟩ := findReject_fires license d1 d2 post hpat pre none
  have hneg : v < 0 := findReject_neg license none _ v hv
  have hs : scoreDiffs license (pre ++ d1 :: d2 :: post) = v := by
    unfold scoreDiffs
    rw [hv]
  have hconf : diffConfidence license (pre ++ d1 :: d2 :: post) klen = 0 := by
    unfold diffConfidence
    simp only [hs]
    rw [if_pos hneg]
  refine ⟨hs ▸ hneg, hconf, ?_⟩
  rw [hconf]
  exact ht

/-- C3 witness: the `TestScoreDiffs` version-change vector — Equal "version"
followed by Insert "2" — at source length 54 and threshold 0.8. -/
theorem c3_policy_rejections_witness :
    scoreDiffs "" [⟨DiffOp.eq, ["version"]⟩, ⟨DiffOp.ins, ["2"]⟩] < 0 ∧
    diffConfidence "" [⟨DiffOp.eq, ["version"]⟩, ⟨DiffOp.ins, ["2"]⟩] 54 = 0 ∧
    diffConfidence "" [⟨DiffOp.eq, ["version"]⟩, ⟨DiffOp.ins, ["2"]⟩] 54 < 4/5 :=
  c3_policy_rejections "" _ 54 (4/5) (by norm_num)
    ⟨[], _, _, [], rfl, Or.inl ⟨rfl, rfl, by decide, "2", rfl, by decide⟩⟩

/-! ## C5: detectRuns widens by the error margin and ends runs on q-gram
boundaries -/

/-- Filtering `range n` by `≤ m` yields `range (m+1)` when `m < n`. -/
theorem filter_range_le (m : ℕ) : ∀ n, m < n →
    (List.range n).filter (fun s => decide (s ≤ m)) = List.range (m + 1) := by
  intro n
  induction n with
  | zero => intro h; omega
  | succ n ih =>
    intro h
    rw [List.range_succ, List.filter_append]
    rcases Nat.lt_or_ge m n with hm | hm
    · rw [ih hm]
      have hone : List.filter (fun s => decide (s ≤ m)) [n] = [] := by
        rw [List.filter_cons, List.filter_nil, if_neg]
        simp only [decide_eq_true_eq]
        omega
      rw [hone, List.append_nil]
    · have hm' : m = n := by omega
      subst hm'
      have h1 : List.filter (fun s => decide (s ≤ m)) (List.range m) = List.range m :=
        List.filter_eq_self.mpr fun a ha => by
          simp only [decide_eq_true_eq]
          exact le_of_lt (List.mem_range.mp ha)
      have h2 : List.filter (fun s => decide (s ≤ m)) [m] = [m] := by simp
      rw [h1, h2, ← List.range_succ]

/-- A fully consecutive tail of passing starts extends the current block to
one single run. -/
theorem runsGo_consec (q : ℕ) : ∀ (k start cur : ℕ),
    runsGo start cur (List.range' (cur + 1) k) q = [mkRun start (cur + k + q)] := by
  intro k
  induction k with
  | zero => intro start cur; rfl
  | succ k ih =>
    intro start cur
    rw [List.range'_succ]
    unfold runsGo
    rw [if_pos rfl]
    have hr : List.range' (cur + 1 + 1) k = List.range' ((cur + 1) + 1) k := rfl
    rw [hr, ih start (cur + 1)]
    simp only [show cur + 1 + k + q = cur + (k + 1) + q from by omega]

/-- The consecutive block `0, 1, …, m` groups into the single run `[0, m+q)`. -/
theorem runsOf_range (m q : ℕ) : runsOf (List.range (m + 1)) q = [mkRun 0 (m + q)] := by
  have h : List.range (m + 1) = 0 :: List.range' 1 m := by
    rw [List.range_eq_range', List.range'_succ]
  rw [h]
  show runsGo 0 0 (List.range' 1 m) q = _
  have := runsGo_consec q m 0 0
  simpa using this

/-- On a full-coverage hit list for a source and target of equal length `L`,
the passing windows are exactly the starts `0..errorMargin`, so `detectRuns`
returns the single widened run `[0, errorMargin + q)`. -/
theorem detectRuns_full (L q : ℕ) (t : ℚ) (hL : 0 < L) (ht : 0 < t) (ht1 : t ≤ 1) :
    detectRuns [⟨0, 0, 0, (L : ℤ), 0⟩] L L t q = [mkRun 0 (errorMargin L t + q)] := by
  have hLq : (0 : ℚ) < (L : ℚ) := by exact_mod_cast hL
  have hmargin : errorMargin L t < L := by
    have hfl : ⌊(L : ℚ) * (1 - t)⌋ < (L : ℤ) := by
      rw [Int.floor_lt]
      push_cast
      nlinarith [mul_pos hLq ht]
    have hnn : 0 ≤ ⌊(L : ℚ) * (1 - t)⌋ := by
      rw [Int.floor_nonneg]
      have h1t : (0 : ℚ) ≤ 1 - t := by linarith
      exact mul_nonneg (le_of_lt hLq) h1t
    unfold errorMargin
    omega
  have hhit : ∀ i : ℕ, hitAt [⟨0, 0, 0, (L : ℤ), 0⟩] i = decide ((i : ℤ) < (L : ℤ)) := by
    intro i
    simp [hitAt]
  have hcount : ∀ s, s ≤ L → countHits [⟨0, 0, 0, (L : ℤ), 0⟩] s L = L - s := by
    intro s hs
    unfold countHits
    rw [List.filter_eq_self.mpr, List.length_range']
    intro a ha
    rw [hhit a, decide_eq_true_eq]
    have hmem := List.mem_range'_1.mp ha
    have haL : a < L := by omega
    exact_mod_cast haL
  have hwp : ∀ s ∈ List.range L,
      windowPass [⟨0, 0, 0, (L : ℤ), 0⟩] L L (errorMargin L t) s =
        decide (s ≤ errorMargin L t) := by
    intro s hs
    have hsL : s < L := List.mem_range.mp hs
    unfold windowPass
    rw [Nat.min_eq_right (by omega), hcount s (by omega), decide_eq_decide]
    omega
  unfold detectRuns
  rw [List.filter_congr hwp, filter_range_le _ L hmargin, runsOf_range]

/-- Every run emitted by the block assembler starts and ends at passing
window starts, the end lying `q` past the last one. -/
theorem runsGo_mem (q : ℕ) (P : ℕ → Prop) :
    ∀ (l : List ℕ) (start cur : ℕ), start ≤ cur → P start → P cur →
      (∀ x ∈ l, P x) → ∀ r ∈ runsGo start cur l q,
        ∃ a b, a ≤ b ∧ r = mkRun a (b + q) ∧ P a ∧ P b := by
  intro l
  induction l with
  | nil =>
    intro start cur hsc hps hpc _ r hr
    unfold runsGo at hr
    rw [List.mem_singleton] at hr
    exact ⟨start, cur, hsc, hr, hps, hpc⟩
  | cons x xs ih =>
    intro start cur hsc hps hpc hall r hr
    unfold runsGo at hr
    by_cases hx : x = cur + 1
    · rw [if_pos hx] at hr
      exact ih start x (by omega) hps (hall x (List.mem_cons_self x xs))
        (fun y hy => hall y (List.mem_cons_of_mem x hy)) r hr
    · rw [if_neg hx] at hr
      rcases List.mem_cons.mp hr with hr | hr
      · exact ⟨start, cur, hsc, hr, hps, hpc⟩
      · exact ih x x le_rfl (hall x (List.mem_cons_self x xs))
          (hall x (List.mem_cons_self x xs))
          (fun y hy => hall y (List.mem_cons_of_mem x hy)) r hr

/-- Every run returned by `detectRuns` spans passing windows and ends on a
q-gram boundary (`q` past its last passing window start). -/
theorem detectRuns_q_boundary (matched : List matchRange)
    (targetLength subsetLength : ℕ) (t : ℚ) (q : ℕ) :
    ∀ r ∈ detectRuns matched targetLength subsetLength t q,
      ∃ a b : ℕ, a ≤ b ∧ r = mkRun a (b + q) ∧
        windowPass matched targetLength subsetLength (errorMargin subsetLength t) a = true ∧
        windowPass matched targetLength subsetLength (errorMargin subsetLength t) b = true := by
  intro r hr
  unfold detectRuns at hr
  rcases hfl : (List.range targetLength).filter
      (windowPass matched targetLength subsetLength (errorMargin subsetLength t)) with
    _ | ⟨a, rest⟩
  · rw [hfl] at hr
    simp [runsOf] at hr
  · rw [hfl] at hr
    have hmem : ∀ x ∈ a :: rest,
        windowPass matched targetLength subsetLength (errorMargin subsetLength t) x = true := by
      intro x hx
      rw [← hfl] at hx
      exact (List.mem_filter.mp hx).2
    unfold runsOf at hr
    exact runsGo_mem q _ rest a a le_rfl (hmem a (List.mem_cons_self a rest))
      (hmem a (List.mem_cons_self a rest))
      (fun y hy => hmem y (List.mem_cons_of_mem a hy)) r hr

/-- C5: for every source of token length `L` and threshold `t`, `detectRuns`
widens the legal start offsets of a run by `floor(L * (1 - t))` before the
naive alignment — on a full-coverage hit list over a target of length `L` the
passing starts are exactly `0..floor(L*(1-t))` and the single returned run is
`[0, floor(L*(1-t)) + q)`; every returned run (for any hit list) ends on a
q-gram boundary, `q` past its last passing window start; in particular at
`t = 0.8`, `L = 100`, `q = 4` the run is `[0, 24)`. -/
theorem c5_detect_runs_margin :
    (∀ (L q : ℕ) (t : ℚ), 0 < L → 0 < t → t ≤ 1 →
      detectRuns [⟨0, 0, 0, (L : ℤ), 0⟩] L L t q = [mkRun 0 (errorMargin L t + q)]) ∧
    (∀ (matched : List matchRange) (targetLength subsetLength : ℕ) (t : ℚ) (q : ℕ),
      ∀ r ∈ detectRuns matched targetLength subsetLength t q,
        ∃ a b : ℕ, a ≤ b ∧ r = mkRun a (b + q) ∧
          windowPass matched targetLength subsetLength (errorMargin subsetLength t) a = true ∧
          windowPass matched targetLength subsetLength (errorMargin subsetLength t) b = true) ∧
    detectRuns [⟨0, 0, 0, 100, 0⟩] 100 100 (4/5) 4 = [mkRun 0 24] := by
  refine ⟨detectRuns_full, detectRuns_q_boundary, ?_⟩
  have h := detectRuns_full 100 4 (4/5) (by norm_num) (by norm_num) (by norm_num)
  have hm : errorMargin 100 (4/5) = 20 := by
    have hf : ⌊((100 : ℕ) : ℚ) * (1 - 4/5)⌋ = 20 := by norm_num [Int.floor_eq_iff]
    unfold errorMargin
    rw [hf]
    rfl
  rw [hm] at h
  exact h

/-- C5 witness: the claim theorem applied at `L = 50`, `t = 0.9`, `q = 3`
(margin 5, run `[0, 8)`) and at the `TestDetectRuns` full-coverage vector. -/
theorem c5_detect_runs_margin_witness :
    detectRuns [⟨0, 0, 0, 50, 0⟩] 50 50 (9/10) 3 = [mkRun 0 8] ∧
    detectRuns [⟨0, 0, 0, 100, 0⟩] 100 100 (4/5) 4 = [mkRun 0 24] := by
  have h := c5_detect_runs_margin.1 50 3 (9/10) (by norm_num) (by norm_num) (by norm_num)
  have hm : errorMargin 50 (9/10) = 5 := by
    have hf : ⌊((50 : ℕ) : ℚ) * (1 - 9/10)⌋ = 5 := by norm_num [Int.floor_eq_iff]
    unfold errorMargin
    rw [hf]
    rfl
  rw [hm] at h
  exact ⟨h, c5_detect_runs_margin.2.2⟩

/-! ## Model validation against the remaining TestDetectRuns vectors -/

example : detectRuns [⟨0, 0, 0, 100, 0⟩] 100 100 1 4 = [mkRun 0 4] := by
  have hm : errorMargin 100 1 = 0 := by
    have hf : ⌊((100 : ℕ) : ℚ) * (1 - 1)⌋ = 0 := by norm_num
    unfold errorMargin
    rw [hf]
    rfl
  unfold detectRuns
  rw [hm]
  decide

example : detectRuns
    [⟨0, 0, 0, 10, 0⟩, ⟨0, 0, 20, 25, 0⟩, ⟨0, 0, 50, 60, 0⟩, ⟨0, 0, 70, 77, 0⟩]
    100 10 (4/5) 4 = [mkRun 0 6, mkRun 48 56] := by
  have hm : errorMargin 10 (4/5) = 2 := by
    have hf : ⌊((10 : ℕ) : ℚ) * (1 - 4/5)⌋ = 2 := by norm_num [Int.floor_eq_iff]
    unfold errorMargin
    rw [hf]
    rfl
  unfold detectRuns
  rw [hm]
  decide

example : detectRuns
    [⟨0, 0, 20, 25, 0⟩, ⟨0, 0, 26, 30, 0⟩, ⟨0, 0, 60, 67, 0⟩, ⟨0, 0, 68, 72, 0⟩]
    100 10 (4/5) 4 = [mkRun 19 25, mkRun 59 67] := by
  have hm : errorMargin 10 (4/5) = 2 := by
    have hf : ⌊((10 : ℕ) : ℚ) * (1 - 4/5)⌋ = 2 := by norm_num [Int.floor_eq_iff]
    unfold errorMargin
    rw [hf]
    rfl
  unfold detectRuns
  rw [hm]
  decide

/-! ## C6: fuseRanges is insensitive to input ordering -/

/-- Sorting by the total order canonicalizes permuted inputs. -/
theorem sortRanges_perm_eq (l1 l2 : List matchRange) (h : l1.Perm l2) :
    sortRanges l1 = sortRanges l2 :=
  List.eq_of_perm_of_sorted
    ((List.perm_insertionSort mrLeRel l1).trans
      (h.trans (List.perm_insertionSort mrLeRel l2).symm))
    (List.sorted_insertionSort mrLeRel l1) (List.sorted_insertionSort mrLeRel l2)

/-- C6: `fuseRanges` is insensitive to the ordering of its input candidate
list — for every pair of candidate lists that are permutations of each other
(all other arguments equal) the fused outputs coincide, because the
deterministic sort canonicalizes the input before the greedy merge. -/
theorem c6_fuse_ranges_perm (l1 l2 : List matchRange) (conf : ℚ) (size : ℕ)
    (h : l1.Perm l2) : fuseRanges l1 conf size = fuseRanges l2 conf size := by
  unfold fuseRanges
  rw [sortRanges_perm_eq l1 l2 h]

/-- C6 witness: the two `TestFuseRanges` input lists ("in target order" and
"not in-target order"), which are permutations of each other, fuse to the
same output at conf 0.8, size 100. -/
theorem c6_fuse_ranges_perm_witness :
    fuseRanges
      [⟨50, 93, 0, 43, 43⟩, ⟨0, 43, 0, 43, 43⟩, ⟨10, 47, 60, 97, 37⟩, ⟨60, 97, 60, 97, 37⟩]
      (4/5) 100 =
    fuseRanges
      [⟨0, 43, 0, 43, 43⟩, ⟨50, 93, 0, 43, 43⟩, ⟨60, 97, 60, 97, 37⟩, ⟨10, 47, 60, 97, 37⟩]
      (4/5) 100 :=
  c6_fuse_ranges_perm _ _ (4/5) 100 (by decide)

/-! ## C10: the retained match list is pairwise disjoint -/

/-- Unfolding of `retainAfter` by one step of the Go loop. -/
theorem retainAfter_succ (cands : List Match) (n : ℕ) :
    retainAfter cands (n + 1) = stepRetain cands (retainAfter cands n) n := by
  unfold retainAfter
  rw [List.range_succ, List.foldl_append, List.foldl_cons, List.foldl_nil]

/-- Candidates not yet processed are not retained. -/
theorem retainAfter_oob (cands : List Match) :
    ∀ n k, n ≤ k → retainAfter cands n k = false := by
  intro n
  induction n with
  | zero => intro k _; rfl
  | succ n ih =>
    intro k hk
    rw [retainAfter_succ]
    unfold stepRetain
    split
    · show (if k = n then true else retainAfter cands n k && !(dropsAt cands n k)) = false
      rw [if_neg (by omega), ih k (by omega)]
      rfl
    · exact ih k (by omega)

/-- Geometric core: when the later match `a` neither `contains` nor
`overlaps` the earlier match `b`, and `b`'s line range is well formed, the
relations also fail in the opposite orientation. -/
theorem disjoint_flip (a b : Match) (hwfb : b.StartLine ≤ b.EndLine)
    (h1 : contains a b = false) (h2 : overlaps a b = false) :
    contains b a = false ∧ overlaps b a = false := by
  simp only [contains, overlaps, between, Bool.and_eq_false_imp, Bool.or_eq_false_iff,
    Bool.and_eq_true, Bool.and_eq_false_iff, decide_eq_true_eq, decide_eq_false_iff_not,
    not_le] at h1 h2 ⊢
  omega

/-- Loop invariant of the Go retain loop: any two candidates retained after
the first `n` iterations are `contains`-free and `overlaps`-free in the
later-against-earlier orientation. -/
theorem retain_pairwise (cands : List Match) :
    ∀ n i j, i < j → j < n →
      retainAfter cands n i = true → retainAfter cands n j = true →
      contains (getM cands j) (getM cands i) = false ∧
        overlaps (getM cands j) (getM cands i) = false := by
  intro n
  induction n with
  | zero => intro i j _ hj; exact absurd hj (by omega)
  | succ n ih =>
    intro i j hij hjn hi hj
    rw [retainAfter_succ] at hi hj
    unfold stepRetain at hi hj
    by_cases hk : keepAt cands (retainAfter cands n) n = true
    · rw [if_pos hk] at hi hj
      by_cases hjeq : j = n
      · have hin : i < n := by omega
        rw [if_neg (show ¬ i = n by omega)] at hi
        simp only [Bool.and_eq_true] at hi
        have hiR : retainAfter cands n i = true := hi.1
        have hiD : dropsAt cands n i = false := by
          have := hi.2
          simp only [Bool.not_eq_eq_eq_not, Bool.not_true] at this
          simpa using this
        have hblock : blocksKeep (getM cands n) (getM cands i) = false := by
          have hall := List.all_eq_true.mp hk
          have hmem : i ∈ (List.range n).filter (retainAfter cands n) :=
            List.mem_filter.mpr ⟨List.mem_range.mpr hin, hiR⟩
          simpa using hall i hmem
        rw [hjeq]
        unfold blocksKeep at hblock
        unfold dropsAt at hiD
        rcases Bool.or_eq_false_iff.mp hblock with ⟨hb1, hb2⟩
        by_cases hc : contains (getM cands n) (getM cands i) = true
        · exfalso
          rw [hc] at hb1 hiD
          simp only [Bool.true_and] at hb1 hiD
          rw [hiD] at hb1
          simp at hb1
        · have hc' : contains (getM cands n) (getM cands i) = false := by
            simpa using hc
          refine ⟨hc', ?_⟩
          rw [hc'] at hb2
          simpa using hb2
      · have hjn' : j < n := by omega
        rw [if_neg hjeq] at hj
        rw [if_neg (show ¬ i = n by omega)] at hi
        simp only [Bool.and_eq_true] at hi hj
        exact ih i j hij hjn' hi.1 hj.1
    · rw [if_neg hk] at hi hj
      by_cases hjeq : j = n
      · rw [hjeq, retainAfter_oob cands n n le_rfl] at hj
        exact absurd hj (by simp)
      · exact ih i j hij (by omega) hi hj

/-- C10: after the overlap-resolution loop of `Corpus.Match`, the returned
matches are pairwise disjoint — for any two distinct retained matches neither
`overlaps` the other nor `contains` the other, provided each candidate's line
range is well formed (start line at most end line, as holds for matches built
from ordered tokens). -/
theorem c10_resolved_matches_disjoint (cands : List Match)
    (hwf : ∀ m ∈ cands, m.StartLine ≤ m.EndLine) :
    (resolveOverlaps cands).Pairwise fun a b =>
      overlaps a b = false ∧ overlaps b a = false ∧
      contains a b = false ∧ contains b a = false := by
  unfold resolveOverlaps
  rw [List.pairwise_map]
  have base : ((List.range cands.length).filter
      (retainAfter cands cands.length)).Pairwise (· < ·) :=
    (List.pairwise_lt_range _).filter _
  refine base.imp_of_mem ?_
  intro i j hi hj hij
  have hi' := List.mem_filter.mp hi
  have hj' := List.mem_filter.mp hj
  have hilen : i < cands.length := List.mem_range.mp hi'.1
  have hmem : getM cands i ∈ cands := by
    rw [getM, List.getD_eq_getElem cands default hilen]
    exact List.getElem_mem hilen
  have hpair := retain_pairwise cands cands.length i j hij
    (List.mem_range.mp hj'.1) hi'.2 hj'.2
  have hflip := disjoint_flip (getM cands j) (getM cands i)
    (hwf _ hmem) hpair.1 hpair.2
  exact ⟨hflip.2, hpair.2, hflip.1, hpair.1⟩

/-- C10 witness: two overlapping candidate matches; the loop retains only the
higher-confidence one, and the pairwise-disjointness of the result follows
from the theorem applied at this concrete list. -/
theorem c10_resolved_matches_disjoint_witness :
    (resolveOverlaps [⟨"a", 1, "Text", 1, 5, 0, 10⟩, ⟨"b", 1/2, "Text", 4, 9, 11, 14⟩]).Pairwise
      fun a b => overlaps a b = false ∧ overlaps b a = false ∧
        contains a b = false ∧ contains b a = false :=
  c10_resolved_matches_disjoint _ (by intro m hm; fin_cases hm <;> decide)

/-- C8: `licName` evaluated on the `TestLicName` table. The code strips
".txt" and ".header" (with variant tag) but does not strip "_no_toc":
"Apache-2.0_no_toc.txt" maps to "Apache-2.0_no_toc", while the test table
(and the spec) expect "Apache-2.0". The first three rows do behave as the
table expects. -/
theorem c8_licName_no_toc_bug :
    licName "GPL-2.0.txt" = "GPL-2.0" ∧
    licName "GPL-2.0.header.txt" = "GPL-2.0" ∧
    licName "GPL-2.0.header_a.txt" = "GPL-2.0" ∧
    licName "Apache-2.0_no_toc.txt" = "Apache-2.0_no_toc" ∧
    licName "Apache-2.0_no_toc.txt" ≠ "Apache-2.0" := by
  refine ⟨by decide, by decide, by decide, by decide, by decide⟩

end LC
